import Mathlib

/-!
Shallow embedding of the osunbitdb document layer: the key codec, dot-path
addressing (src/utils.rs), the operator constructors (src/ops.rs), and the
transaction-handle operations add/get/update/scan (src/transaction.rs),
together with proofs of the specified properties.

Modelling conventions:
* JSON values (serde_json::Value) are modelled by `JValue`; numbers are
  modelled as mathematical integers (the serde_json `as_i64` view; the
  i64 range is not at issue in any property proved here).
* JSON objects are insertion-ordered association lists.  Modelled from the
  spec: the spec fixes the iteration order of a document map and of an
  update spec to insertion order (sections 4.3 and 4.4); the Cargo manifest
  that selects the serde_json map representation is not among the sources.
  Value equality on objects is structural; no property proved here
  compares objects that differ only in field order.
* The transactional substrate is modelled at its interface boundary as an
  association list from string keys to stored payloads; a payload is either
  the JSON encoding of a value, the raw bytes of a bare id string, or
  undecodable bytes.  Engine errors (conflicts, network) are outside the
  model: every engine call succeeds.
* A Rust panic (an `unwrap` or `expect` failure) is modelled by the
  distinguished outcome `DbError.fatal`, and by `none` for `set_deep`.
-/

set_option autoImplicit false

namespace OsunbitDB

/-- JSON-like values, mirroring serde_json::Value with integer numbers. -/
inductive JValue where
  | null : JValue
  | bool : Bool → JValue
  | num : Int → JValue
  | str : String → JValue
  | arr : List JValue → JValue
  | obj : List (String × JValue) → JValue

mutual

/-- Structural equality of JSON values (serde_json PartialEq). -/
def jbeq : JValue → JValue → Bool
  | JValue.null, JValue.null => true
  | JValue.bool a, JValue.bool b => a == b
  | JValue.num a, JValue.num b => a == b
  | JValue.str a, JValue.str b => a == b
  | JValue.arr xs, JValue.arr ys => jbeqL xs ys
  | JValue.obj xs, JValue.obj ys => jbeqO xs ys
  | _, _ => false

def jbeqL : List JValue → List JValue → Bool
  | [], [] => true
  | x :: xs, y :: ys => jbeq x y && jbeqL xs ys
  | _, _ => false

def jbeqO : List (String × JValue) → List (String × JValue) → Bool
  | [], [] => true
  | (k1, v1) :: xs, (k2, v2) :: ys => k1 == k2 && jbeq v1 v2 && jbeqO xs ys
  | _, _ => false

end

mutual

theorem jbeq_sound : ∀ a b : JValue, jbeq a b = true → a = b
  | JValue.null, JValue.null, _ => rfl
  | JValue.bool a, JValue.bool b, h => by
      simp only [jbeq, beq_iff_eq] at h; rw [h]
  | JValue.num a, JValue.num b, h => by
      simp only [jbeq, beq_iff_eq] at h; rw [h]
  | JValue.str a, JValue.str b, h => by
      simp only [jbeq, beq_iff_eq] at h; rw [h]
  | JValue.arr xs, JValue.arr ys, h => by
      rw [jbeqL_sound xs ys (by simpa [jbeq] using h)]
  | JValue.obj xs, JValue.obj ys, h => by
      rw [jbeqO_sound xs ys (by simpa [jbeq] using h)]

theorem jbeqL_sound : ∀ xs ys : List JValue, jbeqL xs ys = true → xs = ys
  | [], [], _ => rfl
  | x :: xs, y :: ys, h => by
      simp only [jbeqL, Bool.and_eq_true] at h
      rw [jbeq_sound x y h.1, jbeqL_sound xs ys h.2]
  | [], _ :: _, h => by simp [jbeqL] at h
  | _ :: _, [], h => by simp [jbeqL] at h

theorem jbeqO_sound : ∀ xs ys : List (String × JValue), jbeqO xs ys = true → xs = ys
  | [], [], _ => rfl
  | (k1, v1) :: xs, (k2, v2) :: ys, h => by
      simp only [jbeqO, Bool.and_eq_true, beq_iff_eq] at h
      rw [h.1.1, jbeq_sound v1 v2 h.1.2, jbeqO_sound xs ys h.2]
  | [], _ :: _, h => by simp [jbeqO] at h
  | _ :: _, [], h => by simp [jbeqO] at h

end

mutual

theorem jbeq_refl : ∀ a : JValue, jbeq a a = true
  | JValue.null => rfl
  | JValue.bool a => by simp [jbeq]
  | JValue.num a => by simp [jbeq]
  | JValue.str a => by simp [jbeq]
  | JValue.arr xs => by simpa [jbeq] using jbeqL_refl xs
  | JValue.obj xs => by simpa [jbeq] using jbeqO_refl xs

theorem jbeqL_refl : ∀ xs : List JValue, jbeqL xs xs = true
  | [] => rfl
  | x :: xs => by simp [jbeqL, jbeq_refl x, jbeqL_refl xs]

theorem jbeqO_refl : ∀ xs : List (String × JValue), jbeqO xs xs = true
  | [] => rfl
  | (k, v) :: xs => by simp [jbeqO, jbeq_refl v, jbeqO_refl xs]

end

instance : DecidableEq JValue := fun a b =>
  if h : jbeq a b = true then Decidable.isTrue (jbeq_sound a b h)
  else Decidable.isFalse (fun e => h (e ▸ jbeq_refl a))

theorem jbeq_iff_eq (a b : JValue) : jbeq a b = true ↔ a = b :=
  ⟨jbeq_sound a b, fun e => e ▸ jbeq_refl a⟩

/-- Rust Vec::contains with serde_json value equality. -/
def jcontains (xs : List JValue) (v : JValue) : Bool :=
  xs.any (fun x => jbeq x v)

theorem jcontains_iff_mem (xs : List JValue) (v : JValue) :
    jcontains xs v = true ↔ v ∈ xs := by
  simp only [jcontains, List.any_eq_true]
  constructor
  · rintro ⟨x, hx, he⟩; exact (jbeq_sound x v he) ▸ hx
  · intro hv; exact ⟨v, hv, jbeq_refl v⟩

/-- Lookup in an object (serde_json Map::get): first entry with the key. -/
def oget : List (String × JValue) → String → Option JValue
  | [], _ => none
  | (k0, v0) :: rest, k => if k0 = k then some v0 else oget rest k

/-- Insert into an insertion-ordered object map (serde_json Map::insert):
replace the value in place when the key is present, else append. -/
def oinsert : List (String × JValue) → String → JValue → List (String × JValue)
  | [], k, v => [(k, v)]
  | (k0, v0) :: rest, k, v =>
      if k0 = k then (k0, v) :: rest else (k0, v0) :: oinsert rest k v

/-- Remove a key from an object map (serde_json Map::remove): drops the first
entry with the key.  Residual ordering of the remaining entries is not
observed by any specified property. -/
def oerase : List (String × JValue) → String → List (String × JValue)
  | [], _ => []
  | (k0, v0) :: rest, k => if k0 = k then rest else (k0, v0) :: oerase rest k

/-- Splitting a dot path into segments, as the Rust path.split on the char
dot: never empty, and empty segments are kept. -/
def splitDotAux : List Char → List Char → List String
  | [], acc => [String.mk acc.reverse]
  | c :: cs, acc =>
      if c = '.' then String.mk acc.reverse :: splitDotAux cs [] else splitDotAux cs (c :: acc)

def splitDot (path : String) : List String :=
  splitDotAux path.data []

/-- Core of utils::set_deep on a segment list.  `none` models the panic of
as_object_mut().unwrap() when a non-final segment holds a non-object. -/
def setDeepL : List String → JValue → List (String × JValue) → Option (List (String × JValue))
  | [], _, m => some m
  | [p], v, m => some (oinsert m p v)
  | p :: q :: rest, v, m =>
      match oget m p with
      | some (JValue.obj s) =>
          (setDeepL (q :: rest) v s).map (fun s2 => oinsert m p (JValue.obj s2))
      | some _ => none
      | none =>
          (setDeepL (q :: rest) v []).map (fun s2 => oinsert m p (JValue.obj s2))

/-- utils::set_deep (dot-notation deep set); `none` is the panic outcome. -/
def set_deep (m : List (String × JValue)) (path : String) (v : JValue) :
    Option (List (String × JValue)) :=
  setDeepL (splitDot path) v m

/-- Core of utils::get_deep on a segment list. -/
def getDeepL : List String → List (String × JValue) → Option JValue
  | [], _ => none
  | [p], m => oget m p
  | p :: q :: rest, m =>
      match oget m p with
      | some (JValue.obj s) => getDeepL (q :: rest) s
      | _ => none

/-- utils::get_deep (dot-notation deep lookup). -/
def get_deep (m : List (String × JValue)) (path : String) : Option JValue :=
  getDeepL (splitDot path) m

/-- Core of utils::remove_deep on a segment list: walk the non-final
segments through objects, then drop the final key; any non-object or
missing intermediate makes the whole call a no-op. -/
def removeDeepL : List String → List (String × JValue) → List (String × JValue)
  | [], m => m
  | [p], m => oerase m p
  | p :: q :: rest, m =>
      match oget m p with
      | some (JValue.obj s) => oinsert m p (JValue.obj (removeDeepL (q :: rest) s))
      | _ => m

/-- utils::remove_deep (dot-notation deep removal, total). -/
def remove_deep (m : List (String × JValue)) (path : String) : List (String × JValue) :=
  removeDeepL (splitDot path) m

/-- serde_json Value::get with a string key: a field of an object. -/
def getField : JValue → String → Option JValue
  | JValue.obj m, k => oget m k
  | _, _ => none

/-- serde_json square-bracket indexing with a string key: Null when the key
is missing or the value is not an object. -/
def vIndex (v : JValue) (k : String) : JValue :=
  (getField v k).getD JValue.null

/-- serde_json as_str. -/
def asStr : JValue → Option String
  | JValue.str s => some s
  | _ => none

/-- serde_json as_i64 (integer numbers in this model). -/
def asI64 : JValue → Option Int
  | JValue.num n => some n
  | _ => none

/-- serde_json as_array. -/
def asArray : JValue → Option (List JValue)
  | JValue.arr xs => some xs
  | _ => none

/-- ops::increment. -/
def increment (amount : Int) : JValue :=
  JValue.obj [("__op", JValue.str "inc"), ("amount", JValue.num amount)]

/-- ops::remove. -/
def removeOpCtor : JValue :=
  JValue.obj [("__op", JValue.str "remove")]

/-- ops::array_union. -/
def array_union (values : JValue) : JValue :=
  JValue.obj [("__op", JValue.str "array_union"), ("values", values)]

/-- The operator discriminators producible by the constructors defined in
src/ops.rs (increment, remove, array_union — the whole of the module). -/
def opsConstructorTags : List String :=
  ["inc", "remove", "array_union"]

end OsunbitDB

namespace OsunbitDB

/-- A stored byte value at the substrate interface: either the JSON
encoding of a document, the raw bytes of a bare id string (as written for
expiry-index entries), or bytes that do not decode as JSON. -/
inductive Payload where
  | jsonOf : JValue → Payload
  | raw : String → Payload
  | garbage : Nat → Payload
deriving DecidableEq

/-- serde_json from_slice at the interface boundary: the JSON encoding of a
value decodes back to it; raw id bytes and garbage do not decode. -/
def decodeJson : Payload → Option JValue
  | Payload.jsonOf v => some v
  | Payload.raw _ => none
  | Payload.garbage _ => none

/-- Errors of the layer that the proofs distinguish.  `serdeJson` is the
SerdeJsonError variant of OsunbitDBError (the serialization-failure class);
`invalidUpdate` is the InvalidUpdate variant; `fatal` models a Rust panic
(an unwrap or expect failure), which is not an OsunbitDBError but aborts
the call. -/
inductive DbError where
  | serdeJson : DbError
  | invalidUpdate : DbError
  | fatal : DbError
deriving DecidableEq

/-- The key-value view of one open transaction (read-your-writes). -/
def KVStore := List (String × Payload)

def kvGet : List (String × Payload) → String → Option Payload
  | [], _ => none
  | (k0, v0) :: rest, k => if k0 = k then some v0 else kvGet rest k

def kvPut : List (String × Payload) → String → Payload → List (String × Payload)
  | [], k, v => [(k, v)]
  | (k0, v0) :: rest, k, v =>
      if k0 = k then (k0, v) :: rest else (k0, v0) :: kvPut rest k v

/-- TransactionHandle::key: the key codec "collection:id". -/
def dbKey (collection id : String) : String :=
  collection ++ ":" ++ id

/-- The state of one open TransactionHandle: its key-value view plus the
ordered log of put operations it has issued. -/
structure TxState where
  store : List (String × Payload)
  puts : List (String × Payload)
deriving DecidableEq

/-- A raw engine put, recorded in the log. -/
def txPut (st : TxState) (k : String) (p : Payload) : TxState :=
  { store := kvPut st.store k p, puts := st.puts ++ [(k, p)] }

/-- TransactionHandle::add: serialize and put at the codec key. -/
def txAdd (st : TxState) (collection id : String) (v : JValue) : TxState :=
  txPut st (dbKey collection id) (Payload.jsonOf v)

/-- TransactionHandle::get: read and deserialize; a payload that does not
decode as JSON surfaces the serde error. -/
def txGet (st : TxState) (collection id : String) :
    Except DbError (Option JValue) :=
  match kvGet st.store (dbKey collection id) with
  | none => Except.ok none
  | some p =>
      match decodeJson p with
      | some v => Except.ok (some v)
      | none => Except.error DbError.serdeJson

/-- One iteration of the merge loop of TransactionHandle::update, for the
entry (k, v) of the update spec.  `none` is the set_deep panic outcome. -/
def applyField (obj : List (String × JValue)) (k : String) (v : JValue) :
    Option (List (String × JValue)) :=
  match getField v "__op" with
  | some op =>
      match (asStr op).getD "" with
      | "inc" =>
          let delta := (asI64 (vIndex v "amount")).getD 0
          let current := ((get_deep obj k).bind asI64).getD 0
          set_deep obj k (JValue.num (current + delta))
      | "remove" => some (remove_deep obj k)
      | "array_union" =>
          let newVals := (asArray (vIndex v "values")).getD []
          let existing := ((get_deep obj k).bind asArray).getD []
          let merged := newVals.foldl
            (fun acc nv => if jcontains acc nv then acc else acc ++ [nv]) existing
          set_deep obj k (JValue.arr merged)
      | "array_remove" =>
          let remVals := (asArray (vIndex v "values")).getD []
          let existing := ((get_deep obj k).bind asArray).getD []
          let remaining := existing.filter (fun item => !(jcontains remVals item))
          set_deep obj k (JValue.arr remaining)
      | _ => set_deep obj k v
  | none => set_deep obj k v

/-- The merge loop of TransactionHandle::update over the spec entries, in
the spec's own field order. -/
def applyFields : List (String × JValue) → List (String × JValue) →
    Option (List (String × JValue))
  | [], obj => some obj
  | (k, v) :: rest, obj =>
      match applyField obj k v with
      | none => none
      | some obj2 => applyFields rest obj2

/-- The key of the secondary expiry index: "expire:expiryAt:id". -/
def expireKey (expiry id : String) : String :=
  "expire:" ++ expiry ++ ":" ++ id

/-- TransactionHandle::update.  Returns the state as left by the call along
with its outcome: read the document (empty object when absent), merge the
spec into it when it is object-rooted, persist the result, then write the
expiry-index key when the merged document carries a string expiryAt field.
A non-object spec against an object-rooted document is rejected with
InvalidUpdate before anything is written; a non-object document skips the
merge (and the spec check), is rewritten as read, and then the expect on
as_object in the TTL block aborts the call. -/
def txUpdate (st : TxState) (collection id : String) (fields : JValue) :
    TxState × Option DbError :=
  match txGet st collection id with
  | Except.error e => (st, some e)
  | Except.ok cur =>
      let data := cur.getD (JValue.obj [])
      match data with
      | JValue.obj obj =>
          match fields with
          | JValue.obj newFields =>
              match applyFields newFields obj with
              | none => (st, some DbError.fatal)
              | some obj2 =>
                  let st1 := txAdd st collection id (JValue.obj obj2)
                  match get_deep obj2 "expiryAt" with
                  | some (JValue.str s) =>
                      (txPut st1 (expireKey s id) (Payload.raw id), none)
                  | _ => (st1, none)
          | _ => (st, some DbError.invalidUpdate)
      | _ =>
          let st1 := txAdd st collection id data
          (st1, some DbError.fatal)

end OsunbitDB

namespace OsunbitDB

/-- Code-point lexicographic order on char lists; for valid Unicode it
agrees with byte-lexicographic order of the UTF-8 encodings. -/
def charListLe : List Char → List Char → Bool
  | [], _ => true
  | _ :: _, [] => false
  | a :: as, b :: bs =>
      if a.toNat < b.toNat then true
      else if b.toNat < a.toNat then false
      else charListLe as bs

/-- Byte-lexicographic comparison of keys. -/
def strLeB (a b : String) : Bool :=
  charListLe a.data b.data

def strLtB (a b : String) : Bool :=
  !(strLeB b a)

/-- Insertion into a descending-by-key list. -/
def insertDescByKey (p : String × Payload) :
    List (String × Payload) → List (String × Payload)
  | [] => [p]
  | q :: rest =>
      if strLeB q.1 p.1 then p :: q :: rest else q :: insertDescByKey p rest

def sortDescByKey (l : List (String × Payload)) : List (String × Payload) :=
  l.foldr insertDescByKey []

/-- The engine's Txn::scan_reverse over the inclusive bound range
lo..=hi, yielding at most n pairs in descending key order. -/
def scanReverse (store : List (String × Payload)) (lo hi : String) (n : Nat) :
    List (String × Payload) :=
  (sortDescByKey (store.filter
    (fun p => strLeB lo p.1 && strLeB p.1 hi))).take n

/-- Rust str::strip_prefix composed with unwrap_or(&k): drop pfx from the
front of s when it is a prefix, else keep s whole. -/
def dropPfxChars : List Char → List Char → Option (List Char)
  | [], s => some s
  | _ :: _, [] => none
  | p :: ps, c :: cs => if p = c then dropPfxChars ps cs else none

def stripPfx (s pfx : String) : String :=
  match dropPfxChars pfx.data s.data with
  | some rest => String.mk rest
  | none => s

/-- The maximum Unicode scalar value, the sentinel of the key codec. -/
def sentinel : String :=
  String.mk [Char.ofNat 0x10FFFF]

/-- The collecting loop of TransactionHandle::scan over the fetched pairs:
strip the collection prefix, skip the cursor id, decode each payload with
unwrap_or(Null), and stop once the count reaches the limit. -/
def scanLoop (pfx cursor : String) (limit : Nat) :
    List (String × Payload) → Nat → List (String × JValue) →
    List (String × JValue)
  | [], _, out => out
  | kv :: rest, count, out =>
      let docId := stripPfx kv.1 pfx
      if cursor ≠ "" ∧ docId = cursor then
        scanLoop pfx cursor limit rest count out
      else
        let v := (decodeJson kv.2).getD JValue.null
        let out2 := out ++ [(docId, v)]
        if count + 1 = limit then out2
        else scanLoop pfx cursor limit rest (count + 1) out2

/-- TransactionHandle::scan: cursor-fed reverse pagination.  The upper
bound is collection:sentinel for the empty cursor and
collection:cursor ++ sentinel otherwise; limit + 1 pairs are fetched so the
cursor row can be dropped.  The result is the output mapping in its
insertion (iteration) order. -/
def txScan (st : TxState) (collection : String) (limit : Nat)
    (cursor : String) : List (String × JValue) :=
  let pfx := collection ++ ":"
  let startKey := if cursor = "" then collection ++ ":" ++ sentinel
    else collection ++ ":" ++ cursor ++ sentinel
  let endKey := collection ++ ":"
  let kvs := scanReverse st.store endKey startKey (limit + 1)
  scanLoop pfx cursor limit kvs 0 []

end OsunbitDB

namespace OsunbitDB

theorem oget_oinsert_self (m : List (String × JValue)) (k : String) (v : JValue) :
    oget (oinsert m k v) k = some v := by
  induction m with
  | nil => simp [oinsert, oget]
  | cons e rest ih =>
      obtain ⟨k0, v0⟩ := e
      by_cases h : k0 = k
      · subst h; simp [oinsert, oget]
      · simp [oinsert, oget, h, ih]

theorem oget_oinsert_ne (m : List (String × JValue)) (k q : String) (v : JValue)
    (h : k ≠ q) : oget (oinsert m k v) q = oget m q := by
  induction m with
  | nil => simp [oinsert, oget, h]
  | cons e rest ih =>
      obtain ⟨k0, v0⟩ := e
      by_cases h0 : k0 = k
      · subst h0; simp [oinsert, oget, h]
      · simp only [oinsert, if_neg h0]
        by_cases h1 : k0 = q
        · simp [oget, h1]
        · simp [oget, h1, ih]

theorem oget_oerase_ne (m : List (String × JValue)) (k q : String)
    (h : k ≠ q) : oget (oerase m k) q = oget m q := by
  induction m with
  | nil => simp [oerase]
  | cons e rest ih =>
      obtain ⟨k0, v0⟩ := e
      by_cases h0 : k0 = k
      · subst h0
        simp [oerase, oget, h]
      · by_cases h1 : k0 = q
        · subst h1
          simp [oerase, h0, oget]
        · simp [oerase, h0, oget, h1, ih]

theorem splitDotAux_ne_nil (cs : List Char) (acc : List Char) :
    splitDotAux cs acc ≠ [] := by
  induction cs generalizing acc with
  | nil => simp [splitDotAux]
  | cons c rest ih =>
      by_cases h : c = '.'
      · simp [splitDotAux, h]
      · simpa [splitDotAux, h] using ih (c :: acc)

theorem splitDot_ne_nil (path : String) : splitDot path ≠ [] :=
  splitDotAux_ne_nil path.data []

/-- Head-lookup congruence: a deep lookup along a nonempty path only
inspects the map through the head key. -/
theorem getDeepL_congr_head (b : String) (qrest : List String)
    (m1 m2 : List (String × JValue)) (h : oget m1 b = oget m2 b) :
    getDeepL (b :: qrest) m1 = getDeepL (b :: qrest) m2 := by
  cases qrest with
  | nil => simpa [getDeepL] using h
  | cons q2 qr => simp only [getDeepL, h]

theorem getDeepL_nil_map (q : List String) (h : q ≠ []) :
    getDeepL q [] = none := by
  cases q with
  | nil => exact absurd rfl h
  | cons b qrest =>
      cases qrest with
      | nil => simp [getDeepL, oget]
      | cons q2 qr => simp [getDeepL, oget]

/-- Setting along a path and reading the same path back yields the value. -/
theorem getDeepL_setDeepL_self :
    ∀ (path : List String) (v : JValue) (m m2 : List (String × JValue)),
      path ≠ [] → setDeepL path v m = some m2 → getDeepL path m2 = some v
  | [], _, _, _, h, _ => absurd rfl h
  | [p], v, m, m2, _, h => by
      simp only [setDeepL, Option.some.injEq] at h
      subst h
      simp [getDeepL, oget_oinsert_self]
  | p :: q :: rest, v, m, m2, _, h => by
      simp only [setDeepL] at h
      cases hg : oget m p with
      | none =>
          rw [hg, Option.map_eq_some'] at h
          obtain ⟨s2, hs2, hm2⟩ := h
          subst hm2
          simp only [getDeepL, oget_oinsert_self]
          exact getDeepL_setDeepL_self (q :: rest) v [] s2 (by simp) hs2
      | some w =>
          cases w with
          | obj s =>
              rw [hg, Option.map_eq_some'] at h
              obtain ⟨s2, hs2, hm2⟩ := h
              subst hm2
              simp only [getDeepL, oget_oinsert_self]
              exact getDeepL_setDeepL_self (q :: rest) v s s2 (by simp) hs2
          | null => rw [hg] at h; cases h
          | bool b => rw [hg] at h; cases h
          | num n => rw [hg] at h; cases h
          | str s => rw [hg] at h; cases h
          | arr xs => rw [hg] at h; cases h

end OsunbitDB

namespace OsunbitDB

/-- Frame property of set_deep: a successful deep set leaves every lookup
along a diverging path (neither path a prefix of the other) unchanged. -/
theorem getDeepL_setDeepL_diverge :
    ∀ (p q : List String) (v : JValue) (m m2 : List (String × JValue)),
      setDeepL p v m = some m2 → ¬ List.IsPrefix p q → ¬ List.IsPrefix q p →
      getDeepL q m2 = getDeepL q m
  | [], _, v, m, m2, hs, _, _ => by
      simp only [setDeepL, Option.some.injEq] at hs
      subst hs; rfl
  | [a], q, v, m, m2, hs, hp, hq => by
      simp only [setDeepL, Option.some.injEq] at hs
      subst hs
      cases q with
      | nil => rfl
      | cons b qrest =>
          have hab : a ≠ b := by
            intro h; subst h
            exact hp (List.cons_prefix_cons.mpr ⟨rfl, List.nil_prefix⟩)
          exact getDeepL_congr_head b qrest _ m (oget_oinsert_ne m a b v hab)
  | a :: a2 :: prest, q, v, m, m2, hs, hp, hq => by
      simp only [setDeepL] at hs
      cases hg : oget m a with
      | none =>
          rw [hg, Option.map_eq_some'] at hs
          obtain ⟨s2, hs2, hm2⟩ := hs
          subst hm2
          cases q with
          | nil => rfl
          | cons b qrest =>
              by_cases hab : a = b
              · subst hab
                cases qrest with
                | nil =>
                    exact absurd (List.cons_prefix_cons.mpr ⟨rfl, List.nil_prefix⟩) hq
                | cons b2 qr2 =>
                    have hrec := getDeepL_setDeepL_diverge (a2 :: prest) (b2 :: qr2) v [] s2 hs2
                      (fun h => hp (List.cons_prefix_cons.mpr ⟨rfl, h⟩))
                      (fun h => hq (List.cons_prefix_cons.mpr ⟨rfl, h⟩))
                    have hL : getDeepL (a :: b2 :: qr2) (oinsert m a (JValue.obj s2)) =
                        getDeepL (b2 :: qr2) s2 := by
                      simp [getDeepL, oget_oinsert_self]
                    have hR : getDeepL (a :: b2 :: qr2) m = none := by
                      simp [getDeepL, hg]
                    rw [hL, hR, hrec, getDeepL_nil_map (b2 :: qr2) (by simp)]
              · exact getDeepL_congr_head b qrest _ m (oget_oinsert_ne m a b _ hab)
      | some w =>
          cases w with
          | obj s =>
              rw [hg, Option.map_eq_some'] at hs
              obtain ⟨s2, hs2, hm2⟩ := hs
              subst hm2
              cases q with
              | nil => rfl
              | cons b qrest =>
                  by_cases hab : a = b
                  · subst hab
                    cases qrest with
                    | nil =>
                        exact absurd (List.cons_prefix_cons.mpr ⟨rfl, List.nil_prefix⟩) hq
                    | cons b2 qr2 =>
                        have hrec := getDeepL_setDeepL_diverge (a2 :: prest) (b2 :: qr2) v s s2 hs2
                          (fun h => hp (List.cons_prefix_cons.mpr ⟨rfl, h⟩))
                          (fun h => hq (List.cons_prefix_cons.mpr ⟨rfl, h⟩))
                        have hL : getDeepL (a :: b2 :: qr2) (oinsert m a (JValue.obj s2)) =
                            getDeepL (b2 :: qr2) s2 := by
                          simp [getDeepL, oget_oinsert_self]
                        have hR : getDeepL (a :: b2 :: qr2) m = getDeepL (b2 :: qr2) s := by
                          simp [getDeepL, hg]
                        rw [hL, hR, hrec]
                  · exact getDeepL_congr_head b qrest _ m (oget_oinsert_ne m a b _ hab)
          | null => rw [hg] at hs; cases hs
          | bool b => rw [hg] at hs; cases hs
          | num n => rw [hg] at hs; cases hs
          | str s => rw [hg] at hs; cases hs
          | arr xs => rw [hg] at hs; cases hs

/-- Frame property of remove_deep: a deep removal leaves every lookup along
a diverging path unchanged. -/
theorem getDeepL_removeDeepL_diverge :
    ∀ (p q : List String) (m : List (String × JValue)),
      ¬ List.IsPrefix p q → ¬ List.IsPrefix q p →
      getDeepL q (removeDeepL p m) = getDeepL q m
  | [], _, m, _, _ => rfl
  | [a], q, m, hp, hq => by
      cases q with
      | nil => rfl
      | cons b qrest =>
          have hab : a ≠ b := by
            intro h; subst h
            exact hp (List.cons_prefix_cons.mpr ⟨rfl, List.nil_prefix⟩)
          exact getDeepL_congr_head b qrest _ m (oget_oerase_ne m a b hab)
  | a :: a2 :: prest, q, m, hp, hq => by
      show getDeepL q (removeDeepL (a :: a2 :: prest) m) = getDeepL q m
      simp only [removeDeepL]
      cases hg : oget m a with
      | none => rfl
      | some w =>
          cases w with
          | obj s =>
              cases q with
              | nil => rfl
              | cons b qrest =>
                  by_cases hab : a = b
                  · subst hab
                    cases qrest with
                    | nil =>
                        exact absurd (List.cons_prefix_cons.mpr ⟨rfl, List.nil_prefix⟩) hq
                    | cons b2 qr2 =>
                        have hrec := getDeepL_removeDeepL_diverge (a2 :: prest) (b2 :: qr2) s
                          (fun h => hp (List.cons_prefix_cons.mpr ⟨rfl, h⟩))
                          (fun h => hq (List.cons_prefix_cons.mpr ⟨rfl, h⟩))
                        have hL : getDeepL (a :: b2 :: qr2)
                            (oinsert m a (JValue.obj (removeDeepL (a2 :: prest) s))) =
                            getDeepL (b2 :: qr2) (removeDeepL (a2 :: prest) s) := by
                          simp [getDeepL, oget_oinsert_self]
                        have hR : getDeepL (a :: b2 :: qr2) m = getDeepL (b2 :: qr2) s := by
                          simp [getDeepL, hg]
                        rw [hL, hR, hrec]
                  · exact getDeepL_congr_head b qrest _ m (oget_oinsert_ne m a b _ hab)
          | null => rfl
          | bool b => rfl
          | num n => rfl
          | str s => rfl
          | arr xs => rfl

end OsunbitDB

namespace OsunbitDB

/-- The configurations in which set_deep aborts: some non-final path
segment resolves to an existing non-object value. -/
def hitsNonObjL : List String → List (String × JValue) → Bool
  | [], _ => false
  | [_], _ => false
  | p :: q :: rest, m =>
      match oget m p with
      | some (JValue.obj s) => hitsNonObjL (q :: rest) s
      | some _ => true
      | none => false

def hitsNonObj (m : List (String × JValue)) (path : String) : Bool :=
  hitsNonObjL (splitDot path) m

theorem hitsNonObjL_nil_map : ∀ (p : List String), hitsNonObjL p [] = false
  | [] => rfl
  | [_] => rfl
  | _ :: _ :: _ => by simp [hitsNonObjL, oget]

/-- set_deep aborts exactly when a non-final segment resolves to an
existing non-object value. -/
theorem setDeepL_none_iff :
    ∀ (p : List String) (v : JValue) (m : List (String × JValue)),
      setDeepL p v m = none ↔ hitsNonObjL p m = true
  | [], v, m => by simp [setDeepL, hitsNonObjL]
  | [a], v, m => by simp [setDeepL, hitsNonObjL]
  | a :: a2 :: prest, v, m => by
      simp only [setDeepL, hitsNonObjL]
      cases hg : oget m a with
      | none =>
          simp only [Option.map_eq_none']
          rw [setDeepL_none_iff (a2 :: prest) v [], hitsNonObjL_nil_map (a2 :: prest)]
      | some w =>
          cases w with
          | obj s =>
              simp only [Option.map_eq_none']
              exact setDeepL_none_iff (a2 :: prest) v s
          | null => simp
          | bool b => simp
          | num n => simp
          | str s => simp
          | arr xs => simp

/-- The array_union accumulation loop produces the existing array followed
by a duplicate-free batch of the new elements, kept in arrival order. -/
theorem unionFold_spec :
    ∀ (incoming existing : List JValue),
      ∃ n, incoming.foldl
          (fun acc nv => if jcontains acc nv then acc else acc ++ [nv]) existing
        = existing ++ n ∧
        (∀ x, x ∈ n ↔ x ∈ incoming ∧ x ∉ existing) ∧
        n.Nodup ∧ n.Sublist incoming
  | [], existing => ⟨[], by simp⟩
  | nv :: rest, existing => by
      simp only [List.foldl_cons]
      by_cases hmem : nv ∈ existing
      · rw [if_pos ((jcontains_iff_mem existing nv).mpr hmem)]
        obtain ⟨n, hfold, hiff, hnd, hsub⟩ := unionFold_spec rest existing
        refine ⟨n, hfold, ?_, hnd, hsub.cons nv⟩
        intro x
        rw [hiff x]
        constructor
        · rintro ⟨hx, hnx⟩; exact ⟨List.mem_cons_of_mem nv hx, hnx⟩
        · rintro ⟨hx, hnx⟩
          rcases List.mem_cons.mp hx with he | hx2
          · exact absurd (he ▸ hmem) hnx
          · exact ⟨hx2, hnx⟩
      · rw [if_neg (fun hc => hmem ((jcontains_iff_mem existing nv).mp hc))]
        obtain ⟨n2, hfold, hiff, hnd, hsub⟩ := unionFold_spec rest (existing ++ [nv])
        refine ⟨nv :: n2, by rw [hfold]; simp, ?_, ?_, hsub.cons₂ nv⟩
        · intro x
          constructor
          · intro hx
            rcases List.mem_cons.mp hx with he | hx2
            · subst he; exact ⟨List.mem_cons_self x rest, hmem⟩
            · obtain ⟨hr, hne⟩ := (hiff x).mp hx2
              simp only [List.mem_append, not_or] at hne
              exact ⟨List.mem_cons_of_mem nv hr, hne.1⟩
          · rintro ⟨hx, hnx⟩
            rcases List.mem_cons.mp hx with he | hx2
            · exact he ▸ List.mem_cons_self nv n2
            · by_cases hxe : x = nv
              · exact hxe ▸ List.mem_cons_self nv n2
              · refine List.mem_cons_of_mem nv ((hiff x).mpr ⟨hx2, ?_⟩)
                simp [hnx, hxe]
        · refine List.nodup_cons.mpr ⟨fun hin => ?_, hnd⟩
          have := (hiff nv).mp hin
          simp at this

end OsunbitDB

namespace OsunbitDB

theorem applyFields_single (k : String) (v : JValue)
    (obj obj2 : List (String × JValue)) :
    applyFields [(k, v)] obj = some obj2 ↔ applyField obj k v = some obj2 := by
  simp only [applyFields]
  cases applyField obj k v with
  | none => simp
  | some o => simp [applyFields]

/-- The write pattern of a successful update: the read document was absent
or decoded to an object, the spec is an object, the merge succeeded, and
the put log grows by the merged document at the codec key followed by the
expiry-index entry exactly when the merged document carries a string
top-level expiryAt. -/
theorem txUpdate_ok_shape (st : TxState) (c i : String) (fields : JValue)
    (st2 : TxState) (h : txUpdate st c i fields = (st2, none)) :
    ∃ obj newFields obj2,
      ((kvGet st.store (dbKey c i) = none ∧ obj = []) ∨
        kvGet st.store (dbKey c i) = some (Payload.jsonOf (JValue.obj obj))) ∧
      fields = JValue.obj newFields ∧
      applyFields newFields obj = some obj2 ∧
      st2.puts = st.puts ++ ((dbKey c i, Payload.jsonOf (JValue.obj obj2)) ::
        (match get_deep obj2 "expiryAt" with
         | some (JValue.str s) => [(expireKey s i, Payload.raw i)]
         | _ => [])) := by
  unfold txUpdate txGet at h
  cases hk : kvGet st.store (dbKey c i) with
  | none =>
      rw [hk] at h
      dsimp only [Option.getD] at h
      cases hf : fields with
      | obj newFields =>
          rw [hf] at h
          dsimp only at h
          cases ha : applyFields newFields [] with
          | none => rw [ha] at h; dsimp only at h; injection h with h1 h2; cases h2
          | some obj2 =>
              rw [ha] at h
              dsimp only at h
              refine ⟨[], newFields, obj2, Or.inl ⟨rfl, rfl⟩, rfl, ha, ?_⟩
              cases he : get_deep obj2 "expiryAt" with
              | none =>
                  rw [he] at h
                  dsimp only at h
                  injection h with h1 h2
                  subst h1
                  simp [txAdd, txPut]
              | some w =>
                  cases w with
                  | str s =>
                      rw [he] at h
                      dsimp only at h
                      injection h with h1 h2
                      subst h1
                      simp [txAdd, txPut]
                  | null =>
                      rw [he] at h; dsimp only at h
                      injection h with h1 h2; subst h1; simp [txAdd, txPut]
                  | bool b =>
                      rw [he] at h; dsimp only at h
                      injection h with h1 h2; subst h1; simp [txAdd, txPut]
                  | num n =>
                      rw [he] at h; dsimp only at h
                      injection h with h1 h2; subst h1; simp [txAdd, txPut]
                  | arr xs =>
                      rw [he] at h; dsimp only at h
                      injection h with h1 h2; subst h1; simp [txAdd, txPut]
                  | obj o =>
                      rw [he] at h; dsimp only at h
                      injection h with h1 h2; subst h1; simp [txAdd, txPut]
      | null => rw [hf] at h; dsimp only at h; injection h with h1 h2; cases h2
      | bool b => rw [hf] at h; dsimp only at h; injection h with h1 h2; cases h2
      | num n => rw [hf] at h; dsimp only at h; injection h with h1 h2; cases h2
      | str s => rw [hf] at h; dsimp only at h; injection h with h1 h2; cases h2
      | arr xs => rw [hf] at h; dsimp only at h; injection h with h1 h2; cases h2
  | some p =>
      rw [hk] at h
      cases p with
      | raw s => dsimp only [decodeJson] at h; injection h with h1 h2; cases h2
      | garbage n => dsimp only [decodeJson] at h; injection h with h1 h2; cases h2
      | jsonOf w =>
          dsimp only [decodeJson] at h
          cases hw : w with
          | obj obj =>
              rw [hw] at h
              dsimp only [Option.getD] at h
              cases hf : fields with
              | obj newFields =>
                  rw [hf] at h
                  dsimp only at h
                  cases ha : applyFields newFields obj with
                  | none => rw [ha] at h; dsimp only at h; injection h with h1 h2; cases h2
                  | some obj2 =>
                      rw [ha] at h
                      dsimp only at h
                      refine ⟨obj, newFields, obj2, Or.inr rfl, rfl, ha, ?_⟩
                      cases he : get_deep obj2 "expiryAt" with
                      | none =>
                          rw [he] at h
                          dsimp only at h
                          injection h with h1 h2
                          subst h1
                          simp [txAdd, txPut]
                      | some w2 =>
                          cases w2 with
                          | str s =>
                              rw [he] at h; dsimp only at h
                              injection h with h1 h2; subst h1; simp [txAdd, txPut]
                          | null =>
                              rw [he] at h; dsimp only at h
                              injection h with h1 h2; subst h1; simp [txAdd, txPut]
                          | bool b =>
                              rw [he] at h; dsimp only at h
                              injection h with h1 h2; subst h1; simp [txAdd, txPut]
                          | num n =>
                              rw [he] at h; dsimp only at h
                              injection h with h1 h2; subst h1; simp [txAdd, txPut]
                          | arr xs =>
                              rw [he] at h; dsimp only at h
                              injection h with h1 h2; subst h1; simp [txAdd, txPut]
                          | obj o =>
                              rw [he] at h; dsimp only at h
                              injection h with h1 h2; subst h1; simp [txAdd, txPut]
              | null => rw [hf] at h; dsimp only at h; injection h with h1 h2; cases h2
              | bool b => rw [hf] at h; dsimp only at h; injection h with h1 h2; cases h2
              | num n => rw [hf] at h; dsimp only at h; injection h with h1 h2; cases h2
              | str s => rw [hf] at h; dsimp only at h; injection h with h1 h2; cases h2
              | arr xs => rw [hf] at h; dsimp only at h; injection h with h1 h2; cases h2
          | null => rw [hw] at h; dsimp only [Option.getD] at h; injection h with h1 h2; cases h2
          | bool b => rw [hw] at h; dsimp only [Option.getD] at h; injection h with h1 h2; cases h2
          | num n => rw [hw] at h; dsimp only [Option.getD] at h; injection h with h1 h2; cases h2
          | str s => rw [hw] at h; dsimp only [Option.getD] at h; injection h with h1 h2; cases h2
          | arr xs => rw [hw] at h; dsimp only [Option.getD] at h; injection h with h1 h2; cases h2

end OsunbitDB

namespace OsunbitDB

/-- A collection holding exactly the documents with ids u1..u5. -/
def pageStore : TxState :=
  { store := [ ("users:u1", Payload.jsonOf (JValue.obj [("id", JValue.str "u1")]))
             , ("users:u2", Payload.jsonOf (JValue.obj [("id", JValue.str "u2")]))
             , ("users:u3", Payload.jsonOf (JValue.obj [("id", JValue.str "u3")]))
             , ("users:u4", Payload.jsonOf (JValue.obj [("id", JValue.str "u4")]))
             , ("users:u5", Payload.jsonOf (JValue.obj [("id", JValue.str "u5")])) ]
  , puts := [] }

/-- Strictly decreasing in byte-lexicographic order. -/
def strictDescB : List String → Bool
  | [] => true
  | [_] => true
  | a :: b :: rest => strLtB b a && strictDescB (b :: rest)

/-- C1: cursor-fed reverse pagination is exhaustive, duplicate-free and
ordered: over a collection holding exactly u1..u5, repeated
scan(collection, 2, cursor) from the empty cursor, feeding back the last
returned id, yields the pages [u5, u4], [u3, u2], [u1] and then nothing;
the concatenation is strictly decreasing, duplicate-free, and covers
exactly the keys present in the collection. -/
theorem scan_pagination_exhaustive :
    (txScan pageStore "users" 2 "").map Prod.fst = ["u5", "u4"] ∧
    (txScan pageStore "users" 2 "u4").map Prod.fst = ["u3", "u2"] ∧
    (txScan pageStore "users" 2 "u2").map Prod.fst = ["u1"] ∧
    (txScan pageStore "users" 2 "u1").map Prod.fst = [] ∧
    (["u5", "u4", "u3", "u2", "u1"] : List String).Nodup ∧
    strictDescB ["u5", "u4", "u3", "u2", "u1"] = true ∧
    (["u5", "u4", "u3", "u2", "u1"] : List String).map (dbKey "users") =
      (pageStore.store.map Prod.fst).reverse := by
  decide

/-- A stored document that is valid JSON but not an object. -/
def nonObjDocSt : TxState :=
  { store := [("c:x", Payload.jsonOf (JValue.num 5))], puts := [] }

/-- C2 counterexample: with the stored document 5 (not an object) under
"c:x", update with the non-object spec 7 does not fail with InvalidUpdate,
and it does perform a write (the document is rewritten before the call
aborts in the TTL block). -/
theorem update_non_object_spec_cex :
    (txUpdate nonObjDocSt "c" "x" (JValue.num 7)).2 ≠ some DbError.invalidUpdate ∧
    (txUpdate nonObjDocSt "c" "x" (JValue.num 7)).1.puts ≠ [] := by
  decide

/-- C2 amended: when the stored value under key(collection, id) is absent
or decodes to a JSON object, update with a non-object spec fails with
InvalidUpdate and leaves the transaction state untouched (no write of any
key is performed). -/
theorem update_non_object_spec (st : TxState) (c i : String) (fields : JValue)
    (hne : ∀ m, fields ≠ JValue.obj m)
    (hdoc : kvGet st.store (dbKey c i) = none ∨
      ∃ m, kvGet st.store (dbKey c i) = some (Payload.jsonOf (JValue.obj m))) :
    txUpdate st c i fields = (st, some DbError.invalidUpdate) := by
  unfold txUpdate txGet
  rcases hdoc with hk | ⟨m, hk⟩
  · rw [hk]
    dsimp only [Option.getD]
    cases fields with
    | obj nf => exact absurd rfl (hne nf)
    | null => rfl
    | bool b => rfl
    | num n => rfl
    | str s => rfl
    | arr xs => rfl
  · rw [hk]
    dsimp only [decodeJson, Option.getD]
    cases fields with
    | obj nf => exact absurd rfl (hne nf)
    | null => rfl
    | bool b => rfl
    | num n => rfl
    | str s => rfl
    | arr xs => rfl

/-- A stored object-rooted document. -/
def objDocSt : TxState :=
  { store := [("c:x", Payload.jsonOf (JValue.obj [("a", JValue.num 1)]))], puts := [] }

theorem update_non_object_spec_witness :
    txUpdate objDocSt "c" "x" (JValue.num 7) = (objDocSt, some DbError.invalidUpdate) :=
  update_non_object_spec objDocSt "c" "x" (JValue.num 7)
    (fun _ h => JValue.noConfusion h)
    (Or.inr ⟨[("a", JValue.num 1)], rfl⟩)

/-- C3 counterexample: with the document holding a at the non-object value
5, set_deep along a.b does not silently return the document unchanged: it
aborts (the as_object_mut unwrap panics, modelled by none). -/
theorem set_deep_silent_stop_cex :
    set_deep [("a", JValue.num 5)] "a.b" (JValue.num 1) = none ∧
    set_deep [("a", JValue.num 5)] "a.b" (JValue.num 1) ≠
      some [("a", JValue.num 5)] := by
  decide

/-- C3 amended: set_deep aborts with a panic (modelled by none) exactly
when some non-final path segment resolves to an existing non-object value;
in every other configuration it returns a document. -/
theorem set_deep_panics_iff (m : List (String × JValue)) (path : String)
    (v : JValue) :
    set_deep m path v = none ↔ hitsNonObj m path = true :=
  setDeepL_none_iff (splitDot path) v m

end OsunbitDB

namespace OsunbitDB

/-- A successful single-entry update merges the one spec entry into the
stored object and puts the merged document at the codec key. -/
theorem txUpdate_single_op (st : TxState) (c i k : String) (v : JValue)
    (m0 : List (String × JValue)) (st2 : TxState)
    (hdoc : kvGet st.store (dbKey c i) = some (Payload.jsonOf (JValue.obj m0)))
    (hup : txUpdate st c i (JValue.obj [(k, v)]) = (st2, none)) :
    ∃ m1, applyField m0 k v = some m1 ∧
      (dbKey c i, Payload.jsonOf (JValue.obj m1)) ∈ st2.puts := by
  obtain ⟨obj, nf, obj2, hread, hfeq, happ, hputs⟩ := txUpdate_ok_shape st c i _ st2 hup
  have hobj : obj = m0 := by
    rcases hread with ⟨hk, _⟩ | hk
    · rw [hdoc] at hk; cases hk
    · rw [hdoc] at hk
      injection hk with h1
      injection h1 with h2
      injection h2 with h3
      exact h3.symm
  have hnf : nf = [(k, v)] := by
    injection hfeq with h1
    exact h1.symm
  subst hobj; subst hnf
  rw [applyFields_single] at happ
  exact ⟨obj2, happ, by
    rw [hputs]; exact List.mem_append_right _ (List.mem_cons_self _ _)⟩

/-- C4: increment semantics.  For an object-rooted stored document and an
operator entry tagged inc at path k, a successful update persists a
document whose field at k is current + delta, with delta the operator
amount as integer (0 when absent or not an integer) and current the
integer previously at the path (0 when absent or not an integer). -/
theorem update_increment (st : TxState) (c i k : String) (v op : JValue)
    (m0 : List (String × JValue)) (st2 : TxState)
    (hdoc : kvGet st.store (dbKey c i) = some (Payload.jsonOf (JValue.obj m0)))
    (hop : getField v "__op" = some op)
    (htag : (asStr op).getD "" = "inc")
    (hup : txUpdate st c i (JValue.obj [(k, v)]) = (st2, none)) :
    ∃ m1, (dbKey c i, Payload.jsonOf (JValue.obj m1)) ∈ st2.puts ∧
      get_deep m1 k = some (JValue.num
        (((get_deep m0 k).bind asI64).getD 0 +
          (asI64 (vIndex v "amount")).getD 0)) := by
  obtain ⟨m1, happ, hmem⟩ := txUpdate_single_op st c i k v m0 st2 hdoc hup
  refine ⟨m1, hmem, ?_⟩
  unfold applyField at happ
  rw [hop] at happ
  dsimp only at happ
  rw [htag] at happ
  simp only [String.reduceEq, reduceIte] at happ
  exact getDeepL_setDeepL_self (splitDot k) _ m0 m1 (splitDot_ne_nil k) happ

/-- A stored empty object document, lacking every field. -/
def emptyObjDocSt : TxState :=
  { store := [("c:x", Payload.jsonOf (JValue.obj []))], puts := [] }

theorem update_increment_witness :
    ∃ m1, (dbKey "c" "x", Payload.jsonOf (JValue.obj m1)) ∈
        ((txUpdate emptyObjDocSt "c" "x"
          (JValue.obj [("counter", increment 5)])).1).puts ∧
      get_deep m1 "counter" = some (JValue.num 5) := by
  obtain ⟨m1, hmem, hget⟩ := update_increment emptyObjDocSt "c" "x" "counter"
    (increment 5) (JValue.str "inc") []
    ((txUpdate emptyObjDocSt "c" "x" (JValue.obj [("counter", increment 5)])).1)
    rfl rfl rfl rfl
  exact ⟨m1, hmem, by rw [hget]; decide⟩

end OsunbitDB

namespace OsunbitDB

/-- C5: array_union semantics.  For an object-rooted stored document and an
operator entry tagged array_union at path k, a successful update persists a
document whose field at k is the existing array (empty when absent or not
an array) followed by a duplicate-free batch n of the incoming values
(empty when absent or not an array): n holds exactly the incoming elements
not already present in the existing array, in incoming order. -/
theorem update_array_union (st : TxState) (c i k : String) (v op : JValue)
    (m0 : List (String × JValue)) (st2 : TxState)
    (hdoc : kvGet st.store (dbKey c i) = some (Payload.jsonOf (JValue.obj m0)))
    (hop : getField v "__op" = some op)
    (htag : (asStr op).getD "" = "array_union")
    (hup : txUpdate st c i (JValue.obj [(k, v)]) = (st2, none)) :
    ∃ m1 n, (dbKey c i, Payload.jsonOf (JValue.obj m1)) ∈ st2.puts ∧
      get_deep m1 k = some (JValue.arr
        (((get_deep m0 k).bind asArray).getD [] ++ n)) ∧
      (∀ x, x ∈ n ↔ x ∈ (asArray (vIndex v "values")).getD [] ∧
        x ∉ ((get_deep m0 k).bind asArray).getD []) ∧
      n.Nodup ∧ n.Sublist ((asArray (vIndex v "values")).getD []) := by
  obtain ⟨m1, happ, hmem⟩ := txUpdate_single_op st c i k v m0 st2 hdoc hup
  unfold applyField at happ
  rw [hop] at happ
  dsimp only at happ
  rw [htag] at happ
  simp only [String.reduceEq, reduceIte] at happ
  obtain ⟨n, hfold, hiff, hnd, hsub⟩ := unionFold_spec
    ((asArray (vIndex v "values")).getD [])
    (((get_deep m0 k).bind asArray).getD [])
  refine ⟨m1, n, hmem, ?_, hiff, hnd, hsub⟩
  rw [← hfold]
  exact getDeepL_setDeepL_self (splitDot k) _ m0 m1 (splitDot_ne_nil k) happ

/-- A stored document with tags a, b. -/
def tagsDocSt : TxState :=
  { store := [("c:x", Payload.jsonOf (JValue.obj
      [("tags", JValue.arr [JValue.str "a", JValue.str "b"])]))]
  , puts := [] }

theorem update_array_union_witness :
    (∃ m1 n, (dbKey "c" "x", Payload.jsonOf (JValue.obj m1)) ∈
        ((txUpdate tagsDocSt "c" "x" (JValue.obj [("tags",
          array_union (JValue.arr [JValue.str "b", JValue.str "c"]))])).1).puts ∧
      get_deep m1 "tags" = some (JValue.arr
        ([JValue.str "a", JValue.str "b"] ++ n)) ∧
      (∀ x, x ∈ n ↔ x ∈ [JValue.str "b", JValue.str "c"] ∧
        x ∉ [JValue.str "a", JValue.str "b"]) ∧
      n.Nodup ∧ n.Sublist [JValue.str "b", JValue.str "c"]) ∧
    ([JValue.str "b", JValue.str "c"].foldl
      (fun acc nv => if jcontains acc nv then acc else acc ++ [nv])
      [JValue.str "a", JValue.str "b"]) =
      [JValue.str "a", JValue.str "b", JValue.str "c"] :=
  ⟨update_array_union tagsDocSt "c" "x" "tags"
    (array_union (JValue.arr [JValue.str "b", JValue.str "c"]))
    (JValue.str "array_union")
    [("tags", JValue.arr [JValue.str "a", JValue.str "b"])]
    ((txUpdate tagsDocSt "c" "x" (JValue.obj [("tags",
      array_union (JValue.arr [JValue.str "b", JValue.str "c"]))])).1)
    rfl rfl rfl rfl
  , by decide⟩

/-- C8 counterexample: the constructors of src/ops.rs are increment,
remove and array_union, producing exactly the discriminators of
opsConstructorTags; no constructor produces the array_remove
discriminator. -/
theorem arrayRemove_ctor_missing_cex :
    "array_remove" ∉ opsConstructorTags ∧
    [vIndex (increment 1) "__op", vIndex removeOpCtor "__op",
      vIndex (array_union (JValue.arr [])) "__op"] =
      [JValue.str "inc", JValue.str "remove", JValue.str "array_union"] := by
  decide

/-- C8 amended: the produced operator constructors are increment, remove
and arrayUnion only (no arrayRemove constructor exists), yet the
merge-update dispatch consumes an array_remove tagged payload: a
successful update with such an entry at path k persists a document whose
field at k is the existing array filtered to drop the operator values. -/
theorem update_array_remove_dispatch (st : TxState) (c i k : String)
    (v op : JValue) (m0 : List (String × JValue)) (st2 : TxState)
    (hdoc : kvGet st.store (dbKey c i) = some (Payload.jsonOf (JValue.obj m0)))
    (hop : getField v "__op" = some op)
    (htag : (asStr op).getD "" = "array_remove")
    (hup : txUpdate st c i (JValue.obj [(k, v)]) = (st2, none)) :
    "array_remove" ∉ opsConstructorTags ∧
    ∃ m1, (dbKey c i, Payload.jsonOf (JValue.obj m1)) ∈ st2.puts ∧
      get_deep m1 k = some (JValue.arr
        ((((get_deep m0 k).bind asArray).getD []).filter
          (fun item => !(jcontains ((asArray (vIndex v "values")).getD []) item)))) := by
  refine ⟨by decide, ?_⟩
  obtain ⟨m1, happ, hmem⟩ := txUpdate_single_op st c i k v m0 st2 hdoc hup
  refine ⟨m1, hmem, ?_⟩
  unfold applyField at happ
  rw [hop] at happ
  dsimp only at happ
  rw [htag] at happ
  simp only [String.reduceEq, reduceIte] at happ
  exact getDeepL_setDeepL_self (splitDot k) _ m0 m1 (splitDot_ne_nil k) happ

/-- A stored document with tags a, b, c. -/
def tagsAbcDocSt : TxState :=
  { store := [("c:x", Payload.jsonOf (JValue.obj
      [("tags", JValue.arr [JValue.str "a", JValue.str "b", JValue.str "c"])]))]
  , puts := [] }

/-- A hand-built array_remove payload, as the dispatch expects it. -/
def arrayRemovePayload (values : JValue) : JValue :=
  JValue.obj [("__op", JValue.str "array_remove"), ("values", values)]

theorem update_array_remove_dispatch_witness :
    "array_remove" ∉ opsConstructorTags ∧
    ∃ m1, (dbKey "c" "x", Payload.jsonOf (JValue.obj m1)) ∈
        ((txUpdate tagsAbcDocSt "c" "x" (JValue.obj [("tags",
          arrayRemovePayload (JValue.arr [JValue.str "b"]))])).1).puts ∧
      get_deep m1 "tags" = some (JValue.arr
        ([JValue.str "a", JValue.str "b", JValue.str "c"].filter
          (fun item => !(jcontains [JValue.str "b"] item)))) :=
  update_array_remove_dispatch tagsAbcDocSt "c" "x" "tags"
    (arrayRemovePayload (JValue.arr [JValue.str "b"]))
    (JValue.str "array_remove")
    [("tags", JValue.arr [JValue.str "a", JValue.str "b", JValue.str "c"])]
    ((txUpdate tagsAbcDocSt "c" "x" (JValue.obj [("tags",
      arrayRemovePayload (JValue.arr [JValue.str "b"]))])).1)
    rfl rfl rfl rfl

end OsunbitDB

namespace OsunbitDB

/-- C9: frame property of merge-update.  For an object-rooted stored
document and a single-entry update spec targeting path k, a successful
update persists a merged document in which every lookup along a path
diverging from k (neither a prefix of the other) is unchanged; in
particular every sibling field keeps its value. -/
theorem update_frame (st : TxState) (c i k : String) (v : JValue)
    (m0 : List (String × JValue)) (st2 : TxState)
    (hdoc : kvGet st.store (dbKey c i) = some (Payload.jsonOf (JValue.obj m0)))
    (hup : txUpdate st c i (JValue.obj [(k, v)]) = (st2, none))
    (q : List String)
    (hq1 : ¬ List.IsPrefix (splitDot k) q)
    (hq2 : ¬ List.IsPrefix q (splitDot k)) :
    ∃ m1, (dbKey c i, Payload.jsonOf (JValue.obj m1)) ∈ st2.puts ∧
      getDeepL q m1 = getDeepL q m0 := by
  obtain ⟨m1, happ, hmem⟩ := txUpdate_single_op st c i k v m0 st2 hdoc hup
  refine ⟨m1, hmem, ?_⟩
  unfold applyField at happ
  cases hopq : getField v "__op" with
  | none =>
      rw [hopq] at happ
      dsimp only at happ
      exact getDeepL_setDeepL_diverge (splitDot k) q v m0 m1 happ hq1 hq2
  | some op =>
      rw [hopq] at happ
      dsimp only at happ
      split at happ
      · exact getDeepL_setDeepL_diverge (splitDot k) q _ m0 m1 happ hq1 hq2
      · injection happ with h1
        rw [← h1]
        exact getDeepL_removeDeepL_diverge (splitDot k) q m0 hq1 hq2
      · exact getDeepL_setDeepL_diverge (splitDot k) q _ m0 m1 happ hq1 hq2
      · exact getDeepL_setDeepL_diverge (splitDot k) q _ m0 m1 happ hq1 hq2
      · exact getDeepL_setDeepL_diverge (splitDot k) q _ m0 m1 happ hq1 hq2

/-- A document with a nested object a and a sibling d. -/
def nestedDocSt : TxState :=
  { store := [("c:x", Payload.jsonOf (JValue.obj
      [ ("a", JValue.obj [("b", JValue.num 1), ("c", JValue.num 2)])
      , ("d", JValue.num 7) ]))]
  , puts := [] }

theorem update_frame_witness :
    ∃ m1, (dbKey "c" "x", Payload.jsonOf (JValue.obj m1)) ∈
        ((txUpdate nestedDocSt "c" "x" (JValue.obj [("a.b", JValue.num 9)])).1).puts ∧
      getDeepL ["a", "c"] m1 = getDeepL ["a", "c"]
        [ ("a", JValue.obj [("b", JValue.num 1), ("c", JValue.num 2)])
        , ("d", JValue.num 7) ] :=
  update_frame nestedDocSt "c" "x" "a.b" (JValue.num 9)
    [ ("a", JValue.obj [("b", JValue.num 1), ("c", JValue.num 2)])
    , ("d", JValue.num 7) ]
    ((txUpdate nestedDocSt "c" "x" (JValue.obj [("a.b", JValue.num 9)])).1)
    rfl rfl ["a", "c"] (by decide) (by decide)

/-- C6: the TTL side effect.  After a successful update, the put log grows
by the merged document at the codec key, then the expiry-index entry
expire:expiryAt:id mapping to the raw id bytes exactly when the merged
document carries a string top-level expiryAt field; when expiryAt is
absent or not a string, no expiry key is written. -/
theorem update_expiry_index (st : TxState) (c i : String) (fields : JValue)
    (st2 : TxState) (h : txUpdate st c i fields = (st2, none)) :
    ∃ m1,
      (∀ s, get_deep m1 "expiryAt" = some (JValue.str s) →
        st2.puts = st.puts ++ [(dbKey c i, Payload.jsonOf (JValue.obj m1)),
          (expireKey s i, Payload.raw i)]) ∧
      ((∀ s, get_deep m1 "expiryAt" ≠ some (JValue.str s)) →
        st2.puts = st.puts ++ [(dbKey c i, Payload.jsonOf (JValue.obj m1))]) := by
  obtain ⟨obj, nf, obj2, _, _, _, hputs⟩ := txUpdate_ok_shape st c i fields st2 h
  refine ⟨obj2, ?_, ?_⟩
  · intro s hs
    rw [hputs, hs]
  · intro hne
    cases he : get_deep obj2 "expiryAt" with
    | none => rw [hputs, he]
    | some w =>
        cases w with
        | str s => exact absurd he (hne s)
        | null => rw [hputs, he]
        | bool b => rw [hputs, he]
        | num n => rw [hputs, he]
        | arr xs => rw [hputs, he]
        | obj o => rw [hputs, he]

/-- The empty transaction state. -/
def emptySt : TxState := { store := [], puts := [] }

theorem update_expiry_index_witness :
    ∃ m1,
      (∀ s, get_deep m1 "expiryAt" = some (JValue.str s) →
        ((txUpdate emptySt "c" "x"
          (JValue.obj [("expiryAt", JValue.str "t1")])).1).puts =
          emptySt.puts ++ [(dbKey "c" "x", Payload.jsonOf (JValue.obj m1)),
            (expireKey s "x", Payload.raw "x")]) ∧
      ((∀ s, get_deep m1 "expiryAt" ≠ some (JValue.str s)) →
        ((txUpdate emptySt "c" "x"
          (JValue.obj [("expiryAt", JValue.str "t1")])).1).puts =
          emptySt.puts ++ [(dbKey "c" "x", Payload.jsonOf (JValue.obj m1))]) :=
  update_expiry_index emptySt "c" "x" (JValue.obj [("expiryAt", JValue.str "t1")])
    ((txUpdate emptySt "c" "x" (JValue.obj [("expiryAt", JValue.str "t1")])).1)
    rfl

/-- A store whose one payload does not decode as JSON. -/
def garbageSt : TxState :=
  { store := [("c:x", Payload.garbage 0)], puts := [] }

/-- C7 counterexample: scan does not fail on an undecodable stored value;
it substitutes JSON null for it and succeeds. -/
theorem scan_decode_substitutes_cex :
    decodeJson (Payload.garbage 0) = none ∧
    txScan garbageSt "c" 5 "" = [("x", JValue.null)] := by
  decide

/-- C7 amended: get surfaces the serialization failure immediately when
the stored payload does not decode, but scan substitutes JSON null for an
undecodable payload and succeeds. -/
theorem decode_failure_amended :
    (∀ (st : TxState) (c i : String) (p : Payload),
        kvGet st.store (dbKey c i) = some p → decodeJson p = none →
        txGet st c i = Except.error DbError.serdeJson) ∧
    txScan garbageSt "c" 5 "" = [("x", JValue.null)] := by
  constructor
  · intro st c i p hk hd
    unfold txGet
    rw [hk]
    dsimp only
    rw [hd]
  · decide

theorem decode_failure_amended_witness :
    txGet garbageSt "c" "x" = Except.error DbError.serdeJson :=
  decode_failure_amended.1 garbageSt "c" "x" (Payload.garbage 0) rfl rfl

/-- C10: every successful update puts the merged document at the codec
key, whatever the spec (including an empty object or no-op operators): the
put log always grows by that entry. -/
theorem update_always_puts (st : TxState) (c i : String) (fields : JValue)
    (st2 : TxState) (h : txUpdate st c i fields = (st2, none)) :
    ∃ d rest, st2.puts = st.puts ++ ((dbKey c i, Payload.jsonOf d) :: rest) := by
  obtain ⟨obj, nf, obj2, _, _, _, hputs⟩ := txUpdate_ok_shape st c i fields st2 h
  exact ⟨JValue.obj obj2, _, hputs⟩

theorem update_always_puts_witness :
    ∃ d rest, ((txUpdate objDocSt "c" "x" (JValue.obj [])).1).puts =
      objDocSt.puts ++ ((dbKey "c" "x", Payload.jsonOf d) :: rest) :=
  update_always_puts objDocSt "c" "x" (JValue.obj [])
    ((txUpdate objDocSt "c" "x" (JValue.obj [])).1) rfl

end OsunbitDB
